import Mathlib

/-!
Verification of the field-ownership / structured-merge subsystem of this
repository against its natural-language specification.

The development is organised from the sources:

* `src/unnamed/part_001` (package `openapi`): `LookupProtoSchema` and
  `parseGroupVersionKind` are embedded directly.
* `src/staging/src/k8s.io/api/node/v1beta1/generated.pb.go`: the protobuf
  marshal/size/unmarshal functions for `RuntimeClass` are embedded directly.
* The field-manager / merge-engine implementation itself is not among the
  source files (only its tests in `src/unnamed/part_000` are); the engine is
  modelled from the specification, with each such definition marked
  `Modelled from the spec:` in its doc comment.
-/

/-! ## Embedding of `src/unnamed/part_001` (package `openapi`)

The proto model interface from the spec, §6: `ListModels() → sequence<name>`,
`LookupModel(name) → Schema|nil`, and a schema exposing an extensions map.
Extension values (Go `interface{}` coming from YAML decoding) are modelled by
the inductive `ExtVal`.  A Go type assertion `x.([]interface{})` corresponds to
matching the `ExtVal.list` constructor, `x.(map[interface{}]interface{})` to
`ExtVal.map`, and `x.(string)` to `ExtVal.str`; a failed assertion on a missing
map key (`nil.(string)`) corresponds to a failed `Option` match. -/

/-- A dynamically-typed extension value, as produced by YAML decoding into
Go `interface{}`. `other` stands for every value that is neither a string,
a list nor a map (numbers, booleans, nil, ...). -/
inductive ExtVal where
  | str (s : String)
  | list (xs : List ExtVal)
  | map (entries : List (ExtVal × ExtVal))
  | other

/-- A Group/Version/Kind triple (`k8s.io/apimachinery/pkg/runtime/schema`). -/
structure GroupVersionKind where
  group : String
  version : String
  kind : String
deriving DecidableEq

/-- A proto schema as consumed by `parseGroupVersionKind`: only the
`GetExtensions()` surface is relevant (a Go `map[string]interface{}`,
modelled as an association list with first-match lookup). -/
structure ProtoSchema where
  extensions : List (String × ExtVal)

/-- The proto models interface: `ListModels` and `LookupModel`
(`nil` result modelled by `none`). -/
structure ProtoModels where
  listModels : List String
  lookupModel : String → Option ProtoSchema

/-- `groupVersionKindExtensionKey` from the source: the key used to look up
the GroupVersionKind value from a definition extensions map. -/
def groupVersionKindExtensionKey : String := "x-kubernetes-group-version-kind"

/-- Does a Go `map[interface{}]interface{}` key (an `ExtVal`) equal a given
string key?  Only string-valued keys can match. -/
def extKeyMatches : ExtVal → String → Bool
  | ExtVal.str s, k => s == k
  | _, _ => false

/-- Lookup in a Go `map[interface{}]interface{}` by a string key. -/
def extMapLookup (entries : List (ExtVal × ExtVal)) (k : String) : Option ExtVal :=
  (entries.find? (fun kv => extKeyMatches kv.1 k)).map (·.2)

/-- `GetExtensions()[key]` : lookup in the schema extensions map. -/
def ProtoSchema.getExt (s : ProtoSchema) (k : String) : Option ExtVal :=
  (s.extensions.find? (fun kv => kv.1 == k)).map (·.2)

/-- One iteration body of the `parseGroupVersionKind` loop: a list entry
contributes a `GroupVersionKind` exactly when it is a map whose `group`,
`version` and `kind` keys all hold strings; otherwise the entry is skipped
(the three `continue` branches of the source). -/
def gvkOfEntry : ExtVal → Option GroupVersionKind
  | ExtVal.map m =>
    match extMapLookup m "group", extMapLookup m "version", extMapLookup m "kind" with
    | some (ExtVal.str g), some (ExtVal.str v), some (ExtVal.str k) =>
      some ⟨g, v, k⟩
    | _, _, _ => none
  | _ => none

/-- `parseGroupVersionKind` from the source: gets and parses GroupVersionKind
from the extension; returns empty if the schema does not have one, or if the
extension value is not a list; skips malformed list entries. -/
def parseGroupVersionKind (s : ProtoSchema) : List GroupVersionKind :=
  match s.getExt groupVersionKindExtensionKey with
  | none => []
  | some gvkExtension =>
    match gvkExtension with
    | ExtVal.list gvkList =>
      gvkList.foldl
        (fun acc gvk =>
          match gvkOfEntry gvk with
          | some g => acc ++ [g]
          | none => acc)
        []
    | _ => []

/-- The two error results of `LookupProtoSchema`, by source line:
`unresolvableModel` for "the ListModels function returned a model that
cannot be looked-up", `noMatchingModel` for "no model found with a
x-kubernetes-group-version-kind tag matching the request". -/
inductive LookupError where
  | unresolvableModel
  | noMatchingModel
deriving DecidableEq

/-- The loop of `LookupProtoSchema` over `models.ListModels()`. -/
def lookupProtoSchemaGo (models : ProtoModels) (gvk : GroupVersionKind) :
    List String → Except LookupError ProtoSchema
  | [] => Except.error LookupError.noMatchingModel
  | modelName :: rest =>
    match models.lookupModel modelName with
    | none => Except.error LookupError.unresolvableModel
    | some model =>
      if gvk ∈ parseGroupVersionKind model then Except.ok model
      else lookupProtoSchemaGo models gvk rest

/-- `LookupProtoSchema` from the source: looks up a single resource schema
within a proto model by its GroupVersionKind. -/
def LookupProtoSchema (models : ProtoModels) (gvk : GroupVersionKind) :
    Except LookupError ProtoSchema :=
  lookupProtoSchemaGo models gvk models.listModels

/-! Supporting lemmas for the `LookupProtoSchema` claim. -/

theorem foldl_append_filterMap (f : ExtVal → Option GroupVersionKind)
    (l : List ExtVal) (init : List GroupVersionKind) :
    l.foldl
      (fun acc gvk => match f gvk with | some g => acc ++ [g] | none => acc)
      init = init ++ l.filterMap f := by
  induction l generalizing init with
  | nil => simp
  | cons x xs ih =>
    cases hx : f x with
    | none => simp [List.foldl_cons, hx, ih]
    | some g => simp [List.foldl_cons, hx, ih]

theorem parseGroupVersionKind_eq_filterMap (s : ProtoSchema) (xs : List ExtVal)
    (h : s.getExt groupVersionKindExtensionKey = some (ExtVal.list xs)) :
    parseGroupVersionKind s = xs.filterMap gvkOfEntry := by
  simp only [parseGroupVersionKind, h]
  exact foldl_append_filterMap gvkOfEntry xs []

theorem lookupProtoSchemaGo_ok (models : ProtoModels) (gvk : GroupVersionKind) :
    ∀ l s, lookupProtoSchemaGo models gvk l = Except.ok s →
      ∃ pre modelName post, l = pre ++ modelName :: post ∧
        models.lookupModel modelName = some s ∧ gvk ∈ parseGroupVersionKind s ∧
        ∀ n ∈ pre, ∃ m, models.lookupModel n = some m ∧ gvk ∉ parseGroupVersionKind m := by
  intro l
  induction l with
  | nil => intro s h; simp [lookupProtoSchemaGo] at h
  | cons x rest ih =>
    intro s h
    simp only [lookupProtoSchemaGo] at h
    cases hx : models.lookupModel x with
    | none => simp only [hx] at h; exact Except.noConfusion h
    | some model =>
      simp only [hx] at h
      by_cases hmem : gvk ∈ parseGroupVersionKind model
      · rw [if_pos hmem] at h
        refine ⟨[], x, rest, by simp, ?_, ?_, by simp⟩
        · cases h; exact hx
        · cases h; exact hmem
      · rw [if_neg hmem] at h
        obtain ⟨pre, n, post, hl, hn, hg, hpre⟩ := ih s h
        refine ⟨x :: pre, n, post, by simp [hl], hn, hg, ?_⟩
        intro y hy
        rcases List.mem_cons.mp hy with rfl | hy
        · exact ⟨model, hx, hmem⟩
        · exact hpre y hy

theorem lookupProtoSchemaGo_noMatch (models : ProtoModels) (gvk : GroupVersionKind) :
    ∀ l, (∀ n ∈ l, ∀ m, models.lookupModel n = some m →
        gvk ∉ parseGroupVersionKind m) →
      ∃ e, lookupProtoSchemaGo models gvk l = Except.error e := by
  intro l
  induction l with
  | nil => intro _; exact ⟨LookupError.noMatchingModel, rfl⟩
  | cons x rest ih =>
    intro hall
    simp only [lookupProtoSchemaGo]
    cases hx : models.lookupModel x with
    | none => exact ⟨LookupError.unresolvableModel, rfl⟩
    | some model =>
      have hnm := hall x (by simp) model hx
      show ∃ e, (if gvk ∈ parseGroupVersionKind model then Except.ok model
        else lookupProtoSchemaGo models gvk rest) = Except.error e
      rw [if_neg hnm]
      exact ih fun n hn => hall n (List.mem_cons_of_mem _ hn)

theorem lookupProtoSchemaGo_nilModel (models : ProtoModels) (gvk : GroupVersionKind) :
    ∀ pre modelName post, models.lookupModel modelName = none →
      (∀ n ∈ pre, ∃ m, models.lookupModel n = some m ∧
        gvk ∉ parseGroupVersionKind m) →
      lookupProtoSchemaGo models gvk (pre ++ modelName :: post) =
        Except.error LookupError.unresolvableModel := by
  intro pre
  induction pre with
  | nil =>
    intro modelName post hnil _
    simp [lookupProtoSchemaGo, hnil]
  | cons x rest ih =>
    intro modelName post hnil hpre
    obtain ⟨m, hm, hnm⟩ := hpre x (by simp)
    simp only [List.cons_append, lookupProtoSchemaGo, hm, if_neg hnm]
    exact ih modelName post hnil fun n hn => hpre n (List.mem_cons_of_mem _ hn)

/-- C9: `LookupProtoSchema` returns the first listed model whose
`x-kubernetes-group-version-kind` extension parses to a list containing the
requested GroupVersionKind; it errs when no listed model matches, and when
`ListModels` names a model that `LookupModel` resolves to nil;
`parseGroupVersionKind` returns the empty list when the extension is absent
or not a list, and skips list entries that are not maps with string
group/version/kind fields (captured by `gvkOfEntry`). -/
theorem C9_lookup_proto_schema (models : ProtoModels) (gvk : GroupVersionKind) :
    (∀ s, LookupProtoSchema models gvk = Except.ok s →
      ∃ pre modelName post, models.listModels = pre ++ modelName :: post ∧
        models.lookupModel modelName = some s ∧ gvk ∈ parseGroupVersionKind s ∧
        ∀ n ∈ pre, ∃ m, models.lookupModel n = some m ∧
          gvk ∉ parseGroupVersionKind m)
    ∧ ((∀ n ∈ models.listModels, ∀ m, models.lookupModel n = some m →
          gvk ∉ parseGroupVersionKind m) →
        ∃ e, LookupProtoSchema models gvk = Except.error e)
    ∧ (∀ pre modelName post, models.listModels = pre ++ modelName :: post →
        models.lookupModel modelName = none →
        (∀ n ∈ pre, ∃ m, models.lookupModel n = some m ∧
          gvk ∉ parseGroupVersionKind m) →
        LookupProtoSchema models gvk = Except.error LookupError.unresolvableModel)
    ∧ (∀ s : ProtoSchema, s.getExt groupVersionKindExtensionKey = none →
        parseGroupVersionKind s = [])
    ∧ (∀ s : ProtoSchema, ∀ ev, s.getExt groupVersionKindExtensionKey = some ev →
        (∀ xs, ev ≠ ExtVal.list xs) → parseGroupVersionKind s = [])
    ∧ (∀ s : ProtoSchema, ∀ xs,
        s.getExt groupVersionKindExtensionKey = some (ExtVal.list xs) →
        parseGroupVersionKind s = xs.filterMap gvkOfEntry) := by
  refine ⟨?_, ?_, ?_, ?_, ?_, ?_⟩
  · exact lookupProtoSchemaGo_ok models gvk models.listModels
  · exact lookupProtoSchemaGo_noMatch models gvk models.listModels
  · intro pre modelName post hl hnil hpre
    unfold LookupProtoSchema
    rw [hl]
    exact lookupProtoSchemaGo_nilModel models gvk pre modelName post hnil hpre
  · intro s h; simp [parseGroupVersionKind, h]
  · intro s ev h hne
    cases ev with
    | list xs => exact absurd rfl (hne xs)
    | str a => simp [parseGroupVersionKind, h]
    | map a => simp [parseGroupVersionKind, h]
    | other => simp [parseGroupVersionKind, h]
  · intro s xs h; exact parseGroupVersionKind_eq_filterMap s xs h

/-- Witness for C9: on a one-model store whose schema carries no extensions,
the lookup fails (no matching model), by the no-match conjunct of the claim
theorem at a concrete input. -/
theorem C9_lookup_proto_schema_witness :
    ∃ e, LookupProtoSchema ⟨["m0"], fun _ => some ⟨[]⟩⟩ ⟨"g", "v", "K"⟩ =
      Except.error e :=
  (C9_lookup_proto_schema ⟨["m0"], fun _ => some ⟨[]⟩⟩ ⟨"g", "v", "K"⟩).2.1
    (by
      intro n _ m hm
      have hm2 : (⟨[]⟩ : ProtoSchema) = m := by simpa using hm
      subst hm2
      simp [parseGroupVersionKind, ProtoSchema.getExt])

/-! ## Model of the field-manager / merge engine (spec §3–§4.5, §6, §7)

Modelled from the spec: the field-manager pipeline and structured-merge
engine implementation is not among the source files — only its tests
(`src/unnamed/part_000`, `TestFieldManager` and friends) are.  The model
below follows the spec: documents are flattened to association lists from
leaf field paths to scalar values; a manager's owned Set is the list of
paths it owns; the ledger maps managers to entries.  Where the spec is
ambiguous the tests in `src/unnamed/part_000` decide (e.g.
`TestApplyStripsFields` shows an Update with caller-supplied managed
fields succeeds with the metadata stripped). -/

/-- A path element, spec §3 "Path Element": named map key (`f:`),
associative list element identified by key/value pairs (`k:`), scalar list
member identified by value (`v:`), or plain list index (`i:`). -/
inductive PathElement where
  | f (key : String)
  | k (kvs : List (String × String))
  | v (val : String)
  | i (idx : Nat)
deriving DecidableEq

/-- A field path: ordered sequence of path elements from the root (spec §3). -/
abbrev FieldPath := List PathElement

/-- A scalar leaf value of the flattened document (spec §3 "Value",
restricted to the scalar leaves the flattened representation stores). -/
inductive Value where
  | null
  | bool (b : Bool)
  | int (n : Int)
  | str (s : String)
deriving DecidableEq

/-- A flattened document: leaf paths with their values. -/
abbrev Document := List (FieldPath × Value)

abbrev Manager := String

/-- The operation kind that produced a ledger row (spec §3). -/
inductive Operation where
  | apply
  | update
deriving DecidableEq

/-- One ledger row (spec §3 `ManagedFieldsEntry`): operation kind, API
version, timestamp and the owned path Set. -/
structure Entry where
  operation : Operation
  apiVersion : String
  time : Nat
  set : List FieldPath
deriving DecidableEq

/-- `ManagedFields`: mapping from manager identifier to its entry (spec §3). -/
abbrev Ledger := List (Manager × Entry)

/-- A live object: its storage API version, flattened fields, and the
managed-fields ledger attached to its metadata (spec §3). -/
structure LiveObject where
  apiVersion : String
  fields : Document
  ledger : Ledger
deriving DecidableEq

/-- A write request's input document: declared API version, flattened
fields, and any caller-supplied managed-fields metadata (spec §4.5
Strip-Meta). -/
structure InputDoc where
  apiVersion : String
  fields : Document
  managedFields : Ledger
deriving DecidableEq

/-- First-match lookup of a path in a flattened document. -/
def lookupF : Document → FieldPath → Option Value
  | [], _ => none
  | pv :: rest, p => if pv.1 = p then some pv.2 else lookupF rest p

/-- The paths claimed by a document (spec §4.3 step 1: every leaf present
in the intent is owned). -/
def docKeys (d : Document) : List FieldPath := d.map Prod.fst

/-- The error taxonomy (spec §7), with the HTTP status each error
surfaces as (`Invalid` 422, `VersionMismatch` 400 / BadRequest per
`TestVersionCheck`, `Conflict` 409). -/
inductive FMError where
  | invalidManager
  | invalidManagedFields
  | versionMismatch (declared live : String)
  | conflict (cs : List (FieldPath × Manager))
deriving DecidableEq

def FMError.statusCode : FMError → Nat
  | FMError.invalidManager => 422
  | FMError.invalidManagedFields => 422
  | FMError.versionMismatch _ _ => 400
  | FMError.conflict _ => 409

/-- Spec §4.3 step 2: the paths of one other manager's Set that conflict
with the intent — in the intent's claimed Set and with a live value
different from the intent's value. -/
def entryConflicts (liveF docF : Document) (e : Entry) : List FieldPath :=
  e.set.filter (fun p =>
    decide (p ∈ docKeys docF ∧ lookupF liveF p ≠ lookupF docF p))

/-- Spec §4.3 step 2, over the whole ledger: every conflicting path paired
with its current owner. -/
def conflictsWith (live : LiveObject) (docF : Document) (manager : Manager) :
    List (FieldPath × Manager) :=
  (live.ledger.filter (fun me => decide (me.1 ≠ manager))).flatMap
    (fun me => (entryConflicts live.fields docF me.2).map (fun p => (p, me.1)))

/-- Spec §4.4: subtract the acting write's claimed paths from one other
manager's entry, dropping the entry when its Set becomes empty. -/
def survivorEntry (ks : List FieldPath) (me : Manager × Entry) :
    Option (Manager × Entry) :=
  if me.2.set.filter (fun p => decide (p ∉ ks)) = [] then none
  else some (me.1, ⟨me.2.operation, me.2.apiVersion, me.2.time,
    me.2.set.filter (fun p => decide (p ∉ ks))⟩)

/-- Spec §4.4: every other manager loses exactly the paths the acting
write now owns; managers whose Set becomes empty are dropped. -/
def subtractFromOthers (ledger : Ledger) (manager : Manager)
    (ks : List FieldPath) : Ledger :=
  (ledger.filter (fun me => decide (me.1 ≠ manager))).filterMap (survivorEntry ks)

/-- Is a path owned by any manager of the (remaining) ledger?
(spec §4.3 step 4: unowned live fields outside the intent are pruned). -/
def ownedByAny (ledger : Ledger) (p : FieldPath) : Bool :=
  ledger.any (fun me => decide (p ∈ me.2.set))

/-- Spec §4.3 step 5 / §4.4: the acting manager's replacement entry keeps
its previous timestamp when nothing but the timestamp would change (no-op
writes must not bump modification timestamps). -/
def retainEntry (ledger : Ledger) (manager : Manager) (candidate : Entry) :
    Entry :=
  match ledger.find? (fun me => decide (me.1 = manager)) with
  | some me =>
    if me.2.operation = candidate.operation ∧
        me.2.apiVersion = candidate.apiVersion ∧ me.2.set = candidate.set
    then me.2 else candidate
  | none => candidate

/-- Spec §4.3 Apply semantics, steps 1–5, after the pipeline checks: the
intent claims its whole key Set; conflicts with other managers fail unless
forced; otherwise the acting manager acquires the intent Set, every other
manager loses those paths, live fields outside the intent that no
remaining manager owns are pruned, and the merge takes the intent's values
for claimed paths and the live values for surviving others. -/
def applyCore (live : LiveObject) (docF : Document) (manager : Manager)
    (force : Bool) (now : Nat) : Except FMError LiveObject :=
  if conflictsWith live docF manager ≠ [] ∧ force = false then
    Except.error (FMError.conflict (conflictsWith live docF manager))
  else
    Except.ok ⟨live.apiVersion,
      docF ++ live.fields.filter (fun pv =>
        decide (pv.1 ∉ docKeys docF) &&
        ownedByAny (subtractFromOthers live.ledger manager (docKeys docF)) pv.1),
      subtractFromOthers live.ledger manager (docKeys docF) ++
        [(manager, retainEntry live.ledger manager
          ⟨Operation.apply, live.apiVersion, now, docKeys docF⟩)]⟩

/-- Spec §4.5 + §4.3: the Apply pipeline. Build-Manager-Info rejects an
empty manager identifier (`Invalid`); Strip-Meta rejects an Apply whose
input carries caller-supplied managed-fields metadata
(`TestApplyFailsWithManagedFields`); the version check fails with
`VersionMismatch` when the declared version differs from the live one and
the converter cannot translate (`TestVersionCheck`); then the core runs. -/
def Apply (convertible : String → String → Bool) (live : LiveObject)
    (doc : InputDoc) (manager : Manager) (force : Bool) (now : Nat) :
    Except FMError LiveObject :=
  if manager = "" then Except.error FMError.invalidManager
  else if doc.managedFields ≠ [] then Except.error FMError.invalidManagedFields
  else if doc.apiVersion ≠ live.apiVersion ∧
      convertible doc.apiVersion live.apiVersion = false then
    Except.error (FMError.versionMismatch doc.apiVersion live.apiVersion)
  else applyCore live doc.fields manager force now

/-- Spec §4.3 Update / §5: values of the submitted document override the
live values at the submitted paths; every live field absent from the
submission is left as-is; newly submitted paths are appended. -/
def mergeUpdate (liveF docF : Document) : Document :=
  liveF.map (fun pv =>
    match lookupF docF pv.1 with
    | some w => (pv.1, w)
    | none => pv)
  ++ docF.filter (fun pv => decide (lookupF liveF pv.1 = none))

/-- The paths an Update actually writes: submitted paths whose value
differs from the live one (spec §4.3 Update semantics: "every path it
just wrote"). -/
def changedPaths (liveF docF : Document) : List FieldPath :=
  (docF.filter (fun pv => decide (lookupF liveF pv.1 ≠ some pv.2))).map Prod.fst

/-- Set union on path lists (spec §4.1 `Union`). -/
def pathUnion (a b : List FieldPath) : List FieldPath :=
  a ++ b.filter (fun p => decide (p ∉ a))

/-- The acting manager's previously owned Set (empty when it has no entry). -/
def prevSet (ledger : Ledger) (manager : Manager) : List FieldPath :=
  match ledger.find? (fun me => decide (me.1 = manager)) with
  | some me => me.2.set
  | none => []

/-- Spec §4.3 Update semantics + §4.4 + §4.5: caller-supplied
managed-fields metadata on the input is stripped, never consulted
(`TestApplyStripsFields`); an Update that changes nothing is a no-op that
returns the live object untouched (`TestNoOpChanges`); otherwise the
submitted values are merged over the live ones, the acting manager's Set
becomes the union of its previous Set and the changed paths, and every
other manager loses exactly the changed paths. -/
def Update (live : LiveObject) (doc : InputDoc) (manager : Manager)
    (now : Nat) : Except FMError LiveObject :=
  if manager = "" then Except.error FMError.invalidManager
  else if changedPaths live.fields doc.fields = [] then Except.ok live
  else
    Except.ok ⟨live.apiVersion, mergeUpdate live.fields doc.fields,
      subtractFromOthers live.ledger manager
          (changedPaths live.fields doc.fields) ++
        [(manager, ⟨Operation.update, live.apiVersion, now,
          pathUnion (prevSet live.ledger manager)
            (changedPaths live.fields doc.fields)⟩)]⟩

/-- The caller commit pattern of `TestFieldManager.Apply`
(`src/unnamed/part_000` lines 283–289): the live object is replaced only
on success; on error it is kept unchanged alongside the error. -/
def commitApply (convertible : String → String → Bool) (live : LiveObject)
    (doc : InputDoc) (manager : Manager) (force : Bool) (now : Nat) :
    LiveObject × Option FMError :=
  match Apply convertible live doc manager force now with
  | Except.ok o => (o, none)
  | Except.error e => (live, some e)

/-- A manager owns a path when some of its ledger entries contains it. -/
def ownsPath (ledger : Ledger) (mg : Manager) (p : FieldPath) : Prop :=
  ∃ e, (mg, e) ∈ ledger ∧ p ∈ e.set

/-! ## Persisted ledger format (spec §4.4, §6)

Modelled from the spec: the persisted form is an ordered list of entries
`{manager, operation, apiVersion, time, fieldsType, fieldsV1}`, where
`fieldsV1` holds the canonical Set encoding with prefix-tagged path
elements (`f:`/`k:`/`v:`/`i:`).  The tagged encoding is modelled
structurally (tag plus payload); decoding rejects unknown tags, and a
malformed fragment or an unrecognized/missing `fieldsType` discriminator
drops its containing entry without failing the whole decode (§4.4,
`TestInvalidManagedFieldsIsDropped`). -/

/-- A persisted path element: its prefix tag (`"f"`, `"k"`, `"v"`, `"i"`)
and its payload. -/
structure EncodedPE where
  tag : String
  name : String
  keys : List (String × String)
  index : Nat
deriving DecidableEq

def encodePE : PathElement → EncodedPE
  | PathElement.f key => ⟨"f", key, [], 0⟩
  | PathElement.k kvs => ⟨"k", "", kvs, 0⟩
  | PathElement.v val => ⟨"v", val, [], 0⟩
  | PathElement.i idx => ⟨"i", "", [], idx⟩

/-- Decoding a persisted path element rejects unknown prefix tags
(spec §4.1: "Decoding rejects unknown prefixes"). -/
def decodePE (e : EncodedPE) : Option PathElement :=
  if e.tag = "f" then some (PathElement.f e.name)
  else if e.tag = "k" then some (PathElement.k e.keys)
  else if e.tag = "v" then some (PathElement.v e.name)
  else if e.tag = "i" then some (PathElement.i e.index)
  else none

def encodeOperation : Operation → String
  | Operation.apply => "Apply"
  | Operation.update => "Update"

/-- Operation must be one of `Apply`/`Update` (spec §6). -/
def decodeOperation (s : String) : Option Operation :=
  if s = "Apply" then some Operation.apply
  else if s = "Update" then some Operation.update
  else none

/-- One persisted ledger row (spec §6). -/
structure EncodedEntry where
  manager : String
  operation : String
  apiVersion : String
  time : Nat
  fieldsType : String
  fieldsV1 : List (List EncodedPE)
deriving DecidableEq

/-- The single recognized `fieldsType` discriminator (spec §6: "currently
exactly one defined encoding scheme"). -/
def fieldsTypeV1 : String := "FieldsV1"

def encodeEntry (me : Manager × Entry) : EncodedEntry :=
  ⟨me.1, encodeOperation me.2.operation, me.2.apiVersion, me.2.time,
    fieldsTypeV1, me.2.set.map (fun p => p.map encodePE)⟩

/-- Decode one path; any malformed element fails the whole path. -/
def decodePath : List EncodedPE → Option FieldPath
  | [] => some []
  | e :: rest =>
    match decodePE e, decodePath rest with
    | some pe, some p => some (pe :: p)
    | _, _ => none

/-- Decode a whole persisted Set; any malformed path fails the Set. -/
def decodePaths : List (List EncodedPE) → Option (List FieldPath)
  | [] => some []
  | l :: rest =>
    match decodePath l, decodePaths rest with
    | some p, some ps => some (p :: ps)
    | _, _ => none

/-- Decode one persisted row: an unrecognized or missing `fieldsType`
discriminator, an unknown operation, or a malformed path encoding makes
the entry corrupt (`none`). -/
def decodeEntry (e : EncodedEntry) : Option (Manager × Entry) :=
  if e.fieldsType = fieldsTypeV1 then
    match decodeOperation e.operation, decodePaths e.fieldsV1 with
    | some op, some set => some (e.manager, ⟨op, e.apiVersion, e.time, set⟩)
    | _, _ => none
  else none

def EncodeManagedFields (m : Ledger) : List EncodedEntry := m.map encodeEntry

/-- Decoding is defensive (spec §4.4): each corrupt entry is dropped and
decoding continues; the decode of the whole ledger never fails. -/
def DecodeManagedFields (l : List EncodedEntry) : Ledger :=
  l.filterMap decodeEntry

/-- A well-formed ledger: at most one live entry per manager (spec §3). -/
def wellFormedLedger (m : Ledger) : Prop := (m.map Prod.fst).Nodup

/-! ## Supporting lemmas: lookup and the persisted format -/

theorem lookupF_eq_some_mem {d : Document} {p : FieldPath} {w : Value}
    (h : lookupF d p = some w) : (p, w) ∈ d := by
  induction d with
  | nil => simp [lookupF] at h
  | cons pv rest ih =>
    by_cases hp : pv.1 = p
    · simp only [lookupF, if_pos hp] at h
      cases h
      have hpv : pv = (p, pv.2) := by rw [← hp]
      rw [← hpv]
      exact List.mem_cons_self _ _
    · simp only [lookupF, if_neg hp] at h
      exact List.mem_cons_of_mem _ (ih h)

theorem lookupF_mem_docKeys {d : Document} {p : FieldPath} {w : Value}
    (h : lookupF d p = some w) : p ∈ docKeys d := by
  have := lookupF_eq_some_mem h
  exact List.mem_map.mpr ⟨(p, w), this, rfl⟩

theorem lookupF_isSome_of_mem_docKeys {d : Document} {p : FieldPath}
    (h : p ∈ docKeys d) : ∃ w, lookupF d p = some w := by
  induction d with
  | nil => simp [docKeys] at h
  | cons pv rest ih =>
    by_cases hp : pv.1 = p
    · exact ⟨pv.2, by simp [lookupF, if_pos hp]⟩
    · have : p ∈ docKeys rest := by
        simp only [docKeys, List.map_cons, List.mem_cons] at h
        exact h.resolve_left (fun hh => hp hh.symm)
      obtain ⟨w, hw⟩ := ih this
      exact ⟨w, by simp [lookupF, if_neg hp, hw]⟩

theorem lookupF_eq_none_iff {d : Document} {p : FieldPath} :
    lookupF d p = none ↔ p ∉ docKeys d := by
  constructor
  · intro h hmem
    obtain ⟨w, hw⟩ := lookupF_isSome_of_mem_docKeys hmem
    rw [h] at hw
    exact Option.noConfusion hw
  · intro h
    cases hl : lookupF d p with
    | none => rfl
    | some w => exact absurd (lookupF_mem_docKeys hl) h

theorem decodePE_encodePE (p : PathElement) : decodePE (encodePE p) = some p := by
  cases p <;> rfl

theorem decodePath_encode (p : FieldPath) :
    decodePath (p.map encodePE) = some p := by
  induction p with
  | nil => rfl
  | cons pe rest ih =>
    simp [decodePath, decodePE_encodePE, ih]

theorem decodePaths_encode (s : List FieldPath) :
    decodePaths (s.map (fun p => p.map encodePE)) = some s := by
  induction s with
  | nil => rfl
  | cons p rest ih =>
    simp [decodePaths, decodePath_encode, ih]

theorem decodeEntry_encodeEntry (me : Manager × Entry) :
    decodeEntry (encodeEntry me) = some me := by
  cases hop : me.2.operation with
  | apply =>
    simp [decodeEntry, encodeEntry, decodePaths_encode, hop, encodeOperation,
      decodeOperation]
    rw [← hop]
  | update =>
    simp [decodeEntry, encodeEntry, decodePaths_encode, hop, encodeOperation,
      decodeOperation]
    rw [← hop]

theorem decodeEntry_corrupt {e : EncodedEntry}
    (h : e.fieldsType ≠ fieldsTypeV1) : decodeEntry e = none := by
  simp [decodeEntry, if_neg h]

/-- C5: decoding the encoded persisted form of a well-formed
managed-fields ledger returns the ledger unchanged:
`DecodeManagedFields (EncodeManagedFields m) = m`. -/
theorem C5_managedfields_roundtrip (m : Ledger) (hwf : wellFormedLedger m) :
    DecodeManagedFields (EncodeManagedFields m) = m := by
  clear hwf
  simp only [DecodeManagedFields, EncodeManagedFields]
  induction m with
  | nil => rfl
  | cons me rest ih =>
    simp [decodeEntry_encodeEntry, ih]

/-- Witness for C5 at a concrete one-entry ledger. -/
theorem C5_managedfields_roundtrip_witness :
    wellFormedLedger [("a", ⟨Operation.apply, "v1", 3, [[PathElement.f "spec"]]⟩)] ∧
    DecodeManagedFields (EncodeManagedFields
      [("a", ⟨Operation.apply, "v1", 3, [[PathElement.f "spec"]]⟩)]) =
      [("a", ⟨Operation.apply, "v1", 3, [[PathElement.f "spec"]]⟩)] :=
  ⟨by simp [wellFormedLedger],
    C5_managedfields_roundtrip _ (by simp [wellFormedLedger])⟩

/-- C6: a persisted ledger with one corrupt entry (missing or unrecognized
`fieldsType` discriminator) and one well-formed entry decodes to exactly
the well-formed entry, and a subsequent Update on the object carrying the
decoded ledger succeeds rather than failing because of the corrupt
entry. -/
theorem C6_corrupt_entry_dropped (corrupt good : EncodedEntry)
    (g : Manager × Entry) (hc : corrupt.fieldsType ≠ fieldsTypeV1)
    (hg : decodeEntry good = some g) (ver : String) (fs : Document)
    (doc : InputDoc) (manager : Manager) (hm : manager ≠ "") (now : Nat) :
    DecodeManagedFields [corrupt, good] = [g] ∧
    ∃ o, Update ⟨ver, fs, DecodeManagedFields [corrupt, good]⟩ doc manager
      now = Except.ok o := by
  constructor
  · simp [DecodeManagedFields, decodeEntry_corrupt hc, hg]
  · by_cases hch : changedPaths fs doc.fields = []
    · exact ⟨_, by rw [Update, if_neg hm, if_pos hch]⟩
    · exact ⟨_, by rw [Update, if_neg hm, if_neg hch]⟩

/-- Witness for C6 at concrete entries and a concrete follow-up Update. -/
theorem C6_corrupt_entry_dropped_witness :
    DecodeManagedFields
        [⟨"broken", "Apply", "v1", 0, "", [[⟨"f", "x", [], 0⟩]]⟩,
         ⟨"ok", "Apply", "v1", 1, "FieldsV1", [[⟨"f", "y", [], 0⟩]]⟩] =
      [("ok", ⟨Operation.apply, "v1", 1, [[PathElement.f "y"]]⟩)] ∧
    ∃ o, Update ⟨"v1", [], DecodeManagedFields
        [⟨"broken", "Apply", "v1", 0, "", [[⟨"f", "x", [], 0⟩]]⟩,
         ⟨"ok", "Apply", "v1", 1, "FieldsV1", [[⟨"f", "y", [], 0⟩]]⟩]⟩
      ⟨"v1", [([PathElement.f "y"], Value.int 5)], []⟩ "writer" 7 =
      Except.ok o :=
  C6_corrupt_entry_dropped _ _ _ (by decide) (by decide) _ _ _ _
    (by decide) 7

/-! ## Conflict detection (C1, C2) -/

theorem mem_conflictsWith {live : LiveObject} {docF : Document}
    {manager : Manager} {p : FieldPath} {m : Manager} :
    (p, m) ∈ conflictsWith live docF manager ↔
      ∃ e, (m, e) ∈ live.ledger ∧ m ≠ manager ∧ p ∈ e.set ∧
        p ∈ docKeys docF ∧ lookupF live.fields p ≠ lookupF docF p := by
  constructor
  · intro h
    rw [conflictsWith, List.mem_flatMap] at h
    obtain ⟨me, hme, hmem⟩ := h
    rw [List.mem_filter] at hme
    obtain ⟨hme1, hme2⟩ := hme
    rw [List.mem_map] at hmem
    obtain ⟨q, hq, heq⟩ := hmem
    rw [entryConflicts, List.mem_filter] at hq
    obtain ⟨hq1, hq2⟩ := hq
    rw [decide_eq_true_eq] at hq2
    have heq1 : q = p := congrArg Prod.fst heq
    have heq2 : me.1 = m := congrArg Prod.snd heq
    subst heq1
    refine ⟨me.2, ?_, ?_, hq1, hq2.1, hq2.2⟩
    · rw [← heq2]
      exact hme1
    · rw [← heq2]
      exact decide_eq_true_eq.mp hme2
  · rintro ⟨e, he, hm, hp, hk, hv⟩
    rw [conflictsWith, List.mem_flatMap]
    refine ⟨(m, e), ?_, ?_⟩
    · rw [List.mem_filter]
      exact ⟨he, by simpa using hm⟩
    · rw [List.mem_map]
      refine ⟨p, ?_, rfl⟩
      rw [entryConflicts, List.mem_filter]
      exact ⟨hp, by simp [hk, hv]⟩

/-- C1: when manager A owns path P with live value v and a different
manager B Applies an intent claiming P with a different value and
force=false, the call fails with a Conflict naming P and owner A, and the
committed live object is unchanged (the `commitApply` caller pattern keeps
the previous object on error). -/
theorem C1_apply_conflict_fails (convertible : String → String → Bool)
    (live : LiveObject) (doc : InputDoc) (A B : Manager) (eA : Entry)
    (P : FieldPath) (v w : Value) (now : Nat)
    (hAB : A ≠ B) (hA : (A, eA) ∈ live.ledger) (hP : P ∈ eA.set)
    (hlive : lookupF live.fields P = some v)
    (hdoc : lookupF doc.fields P = some w) (hvw : w ≠ v)
    (hB : B ≠ "") (hmf : doc.managedFields = [])
    (hver : doc.apiVersion = live.apiVersion) :
    ∃ cs, commitApply convertible live doc B false now =
        (live, some (FMError.conflict cs)) ∧ (P, A) ∈ cs := by
  have hPA : (P, A) ∈ conflictsWith live doc.fields B :=
    mem_conflictsWith.mpr ⟨eA, hA, hAB, hP, lookupF_mem_docKeys hdoc,
      by rw [hlive, hdoc]; exact fun hh => hvw (Option.some.inj hh).symm⟩
  have hne : conflictsWith live doc.fields B ≠ [] := by
    intro hnil
    rw [hnil] at hPA
    exact List.not_mem_nil _ hPA
  refine ⟨conflictsWith live doc.fields B, ?_, hPA⟩
  rw [commitApply, Apply, if_neg hB, if_neg (not_not_intro hmf),
    if_neg (fun hc => hc.1 hver), applyCore, if_pos ⟨hne, rfl⟩]

/-- Witness for C1 at a concrete conflict scenario: owner "A" holds
`spec.replicas = 3` and "B" applies `5` without force. -/
theorem C1_apply_conflict_fails_witness :
    ∃ cs, commitApply (fun _ _ => false)
        ⟨"v1", [([PathElement.f "replicas"], Value.int 3)],
          [("A", ⟨Operation.update, "v1", 0, [[PathElement.f "replicas"]]⟩)]⟩
        ⟨"v1", [([PathElement.f "replicas"], Value.int 5)], []⟩
        "B" false 9 =
      (⟨"v1", [([PathElement.f "replicas"], Value.int 3)],
          [("A", ⟨Operation.update, "v1", 0, [[PathElement.f "replicas"]]⟩)]⟩,
        some (FMError.conflict cs)) ∧
      ([PathElement.f "replicas"], "A") ∈ cs :=
  C1_apply_conflict_fails (fun _ _ => false) _ _ "A" "B"
    ⟨Operation.update, "v1", 0, [[PathElement.f "replicas"]]⟩
    [PathElement.f "replicas"] (Value.int 3) (Value.int 5) 9
    (by decide) (by decide) (by decide) (by decide) (by decide) (by decide)
    (by decide) (by decide) (by decide)

/-- C2: an Apply by a manager that does not own path P, claiming values
all equal to the live ones (in particular P with its live value),
succeeds with no Conflict error even though P is owned by another
manager. -/
theorem C2_apply_equal_value_succeeds (convertible : String → String → Bool)
    (live : LiveObject) (doc : InputDoc) (A B : Manager) (eA : Entry)
    (P : FieldPath) (now : Nat)
    (hAB : A ≠ B) (hA : (A, eA) ∈ live.ledger) (hP : P ∈ eA.set)
    (hBnot : ∀ e, (B, e) ∈ live.ledger → P ∉ e.set)
    (hPclaim : P ∈ docKeys doc.fields)
    (heq : ∀ pv ∈ doc.fields, lookupF live.fields pv.1 = some pv.2)
    (hB : B ≠ "") (hmf : doc.managedFields = [])
    (hver : doc.apiVersion = live.apiVersion) :
    ∃ o, Apply convertible live doc B false now = Except.ok o := by
  have hcs : conflictsWith live doc.fields B = [] := by
    by_contra hne
    obtain ⟨pm, hpm⟩ := List.exists_mem_of_ne_nil _ hne
    obtain ⟨p2, m2⟩ := pm
    obtain ⟨e, _, _, _, hk, hv⟩ := mem_conflictsWith.mp hpm
    obtain ⟨w, hw⟩ := lookupF_isSome_of_mem_docKeys hk
    have hlv : lookupF live.fields p2 = some w :=
      heq (p2, w) (lookupF_eq_some_mem hw)
    exact hv (by rw [hlv, hw])
  exact ⟨_, by rw [Apply, if_neg hB, if_neg (not_not_intro hmf),
    if_neg (fun hc => hc.1 hver), applyCore, if_neg (fun hc => hc.1 hcs)]⟩

/-- Witness for C2: "B" re-declares the live value 3 of a path owned by
"A"; the call succeeds. -/
theorem C2_apply_equal_value_succeeds_witness :
    ∃ o, Apply (fun _ _ => false)
        ⟨"v1", [([PathElement.f "replicas"], Value.int 3)],
          [("A", ⟨Operation.update, "v1", 0, [[PathElement.f "replicas"]]⟩)]⟩
        ⟨"v1", [([PathElement.f "replicas"], Value.int 3)], []⟩
        "B" false 9 = Except.ok o :=
  C2_apply_equal_value_succeeds (fun _ _ => false) _ _ "A" "B"
    ⟨Operation.update, "v1", 0, [[PathElement.f "replicas"]]⟩
    [PathElement.f "replicas"] 9
    (by decide) (by decide) (by decide) (by intro e he; simp at he)
    (by decide) (by decide) (by decide) (by decide) (by decide)

/-! ## Strip-Meta behavior (C7) and version checking (C8) -/

/-- Counterexample to C7 as stated: an Update whose input document carries
caller-supplied managed-fields metadata is NOT rejected — it succeeds (the
forged metadata is stripped/ignored), per `TestApplyStripsFields` in
`src/unnamed/part_000`. -/
theorem C7_reject_claim_counterexample :
    Update ⟨"v1", [], []⟩
      ⟨"v1", [],
        [("forged", ⟨Operation.apply, "v1", 0, [[PathElement.f "a"]]⟩)]⟩
      "mgr" 0 = Except.ok ⟨"v1", [], []⟩ := rfl

/-- C7 (amended): an Apply whose input carries caller-supplied
managed-fields metadata is rejected with an Invalid error (422); an Update
with such metadata is not rejected — the metadata is stripped (never
consulted: the result equals the result for the same input without the
metadata) and the call succeeds. -/
theorem C7_amended_strip_reject (convertible : String → String → Bool)
    (live : LiveObject) (doc : InputDoc) (manager : Manager) (force : Bool)
    (now : Nat) (hm : manager ≠ "") :
    (doc.managedFields ≠ [] →
      Apply convertible live doc manager force now =
        Except.error FMError.invalidManagedFields ∧
      FMError.invalidManagedFields.statusCode = 422)
    ∧ Update live doc manager now =
        Update live ⟨doc.apiVersion, doc.fields, []⟩ manager now
    ∧ ∃ o, Update live doc manager now = Except.ok o := by
  refine ⟨?_, rfl, ?_⟩
  · intro hmf
    exact ⟨by rw [Apply, if_neg hm, if_pos hmf], rfl⟩
  · by_cases hch : changedPaths live.fields doc.fields = []
    · exact ⟨_, by rw [Update, if_neg hm, if_pos hch]⟩
    · exact ⟨_, by rw [Update, if_neg hm, if_neg hch]⟩

/-- Witness for the amended C7 at a concrete forged input. -/
theorem C7_amended_strip_reject_witness :
    (([("forged", (⟨Operation.apply, "v1", 0, [[PathElement.f "a"]]⟩ : Entry))] : Ledger) ≠ [] →
      Apply (fun _ _ => false) ⟨"v1", [], []⟩
        ⟨"v1", [],
          [("forged", ⟨Operation.apply, "v1", 0, [[PathElement.f "a"]]⟩)]⟩
        "mgr" false 0 = Except.error FMError.invalidManagedFields ∧
      FMError.invalidManagedFields.statusCode = 422)
    ∧ Update ⟨"v1", [], []⟩
        ⟨"v1", [],
          [("forged", ⟨Operation.apply, "v1", 0, [[PathElement.f "a"]]⟩)]⟩
        "mgr" 0 =
      Update ⟨"v1", [], []⟩ ⟨"v1", [], []⟩ "mgr" 0
    ∧ ∃ o, Update ⟨"v1", [], []⟩
        ⟨"v1", [],
          [("forged", ⟨Operation.apply, "v1", 0, [[PathElement.f "a"]]⟩)]⟩
        "mgr" 0 = Except.ok o :=
  C7_amended_strip_reject (fun _ _ => false) ⟨"v1", [], []⟩
    ⟨"v1", [], [("forged", ⟨Operation.apply, "v1", 0, [[PathElement.f "a"]]⟩)]⟩
    "mgr" false 0 (by decide)

/-- C8: an Apply whose intent declares an API version different from the
live object's that the converter cannot translate fails with a
VersionMismatch surfaced as HTTP 400 (a client error); an Apply declaring
the live object's own version never fails with VersionMismatch. -/
theorem C8_version_mismatch (convertible : String → String → Bool)
    (live : LiveObject) (doc : InputDoc) (manager : Manager) (force : Bool)
    (now : Nat) (hm : manager ≠ "") (hmf : doc.managedFields = []) :
    (doc.apiVersion ≠ live.apiVersion →
      convertible doc.apiVersion live.apiVersion = false →
      Apply convertible live doc manager force now =
        Except.error
          (FMError.versionMismatch doc.apiVersion live.apiVersion) ∧
      (FMError.versionMismatch doc.apiVersion live.apiVersion).statusCode
        = 400)
    ∧ (doc.apiVersion = live.apiVersion →
      ∀ d l, Apply convertible live doc manager force now ≠
        Except.error (FMError.versionMismatch d l)) := by
  constructor
  · intro hne hconv
    exact ⟨by rw [Apply, if_neg hm, if_neg (not_not_intro hmf),
      if_pos ⟨hne, hconv⟩], rfl⟩
  · intro hv d l
    rw [Apply, if_neg hm, if_neg (not_not_intro hmf),
      if_neg (fun hc => hc.1 hv), applyCore]
    by_cases hcs : conflictsWith live doc.fields manager ≠ [] ∧ force = false
    · rw [if_pos hcs]
      simp
    · rw [if_neg hcs]
      simp

/-- Witness for C8: a concrete version skew with an untranslating
converter fails 400, by the first conjunct at a concrete input. -/
theorem C8_version_mismatch_witness :
    (("v2" : String) ≠ ("v1" : String) →
      (fun (_ _ : String) => false) "v2" "v1" = false →
      Apply (fun _ _ => false) ⟨"v1", [], []⟩ ⟨"v2", [], []⟩ "mgr" false 0 =
        Except.error (FMError.versionMismatch "v2" "v1") ∧
      (FMError.versionMismatch "v2" "v1").statusCode = 400)
    ∧ (("v2" : String) = ("v1" : String) →
      ∀ d l, Apply (fun _ _ => false) ⟨"v1", [], []⟩ ⟨"v2", [], []⟩ "mgr"
          false 0 ≠
        Except.error (FMError.versionMismatch d l)) :=
  C8_version_mismatch (fun _ _ => false) ⟨"v1", [], []⟩ ⟨"v2", [], []⟩
    "mgr" false 0 (by decide) (by decide)

/-! ## Update frame properties (C4) -/

theorem lookupF_map_merge {liveF docF : Document} {p : FieldPath}
    (h : p ∉ docKeys docF) :
    lookupF (liveF.map (fun pv =>
      match lookupF docF pv.1 with
      | some w => (pv.1, w)
      | none => pv)) p = lookupF liveF p := by
  induction liveF with
  | nil => rfl
  | cons pv rest ih =>
    by_cases hp : pv.1 = p
    · subst hp
      have hdoc : lookupF docF pv.1 = none := lookupF_eq_none_iff.mpr h
      simp [lookupF, hdoc]
    · cases hd : lookupF docF pv.1 with
      | none => simp only [List.map_cons, hd, lookupF, if_neg hp, ih]
      | some w => simp only [List.map_cons, hd, lookupF, if_neg hp, ih]

theorem lookupF_filter_subset {docF : Document} {p : FieldPath}
    (q : FieldPath × Value → Bool) (h : p ∉ docKeys docF) :
    lookupF (docF.filter q) p = none := by
  rw [lookupF_eq_none_iff]
  intro hmem
  rw [docKeys, List.mem_map] at hmem
  obtain ⟨pv, hpv, hpe⟩ := hmem
  exact h (List.mem_map.mpr ⟨pv, List.mem_of_mem_filter hpv, hpe⟩)

theorem lookupF_append (a b : Document) (p : FieldPath) :
    lookupF (a ++ b) p =
      match lookupF a p with
      | some w => some w
      | none => lookupF b p := by
  induction a with
  | nil => rfl
  | cons pv rest ih =>
    by_cases hp : pv.1 = p
    · simp [lookupF, if_pos hp]
    · simp only [List.cons_append, lookupF, if_neg hp]
      exact ih

theorem lookupF_mergeUpdate {liveF docF : Document} {p : FieldPath}
    (h : p ∉ docKeys docF) :
    lookupF (mergeUpdate liveF docF) p = lookupF liveF p := by
  rw [mergeUpdate, lookupF_append, lookupF_map_merge h]
  cases hl : lookupF liveF p with
  | some w => rfl
  | none => exact lookupF_filter_subset _ h

theorem changedPaths_subset_docKeys {liveF docF : Document} {p : FieldPath}
    (h : p ∈ changedPaths liveF docF) : p ∈ docKeys docF := by
  rw [changedPaths, List.mem_map] at h
  obtain ⟨pv, hpv, hpe⟩ := h
  exact List.mem_map.mpr ⟨pv, List.mem_of_mem_filter hpv, hpe⟩

theorem ownsPath_subtractFromOthers {ledger : Ledger} {manager mg : Manager}
    {ks : List FieldPath} {p : FieldPath} (hmg : mg ≠ manager)
    (hp : p ∉ ks) :
    ownsPath (subtractFromOthers ledger manager ks) mg p ↔
      ownsPath ledger mg p := by
  constructor
  · rintro ⟨e, he, hpe⟩
    rw [subtractFromOthers, List.mem_filterMap] at he
    obtain ⟨me, hme, hsur⟩ := he
    rw [survivorEntry] at hsur
    by_cases hs : me.2.set.filter (fun q => decide (q ∉ ks)) = []
    · rw [if_pos hs] at hsur
      exact Option.noConfusion hsur
    · rw [if_neg hs] at hsur
      have h1 : me.1 = mg := congrArg Prod.fst (Option.some.inj hsur)
      have h2 : (⟨me.2.operation, me.2.apiVersion, me.2.time,
          me.2.set.filter (fun q => decide (q ∉ ks))⟩ : Entry) = e :=
        congrArg Prod.snd (Option.some.inj hsur)
      refine ⟨me.2, ?_, ?_⟩
      · rw [← h1]
        exact List.mem_of_mem_filter hme
      · rw [← h2] at hpe
        exact List.mem_of_mem_filter hpe
  · rintro ⟨e, he, hpe⟩
    have hps : p ∈ e.set.filter (fun q => decide (q ∉ ks)) :=
      List.mem_filter.mpr ⟨hpe, by simpa using hp⟩
    have hs : e.set.filter (fun q => decide (q ∉ ks)) ≠ [] := by
      intro hnil
      rw [hnil] at hps
      exact List.not_mem_nil _ hps
    refine ⟨⟨e.operation, e.apiVersion, e.time,
      e.set.filter (fun q => decide (q ∉ ks))⟩, ?_, hps⟩
    rw [subtractFromOthers, List.mem_filterMap]
    refine ⟨(mg, e), List.mem_filter.mpr ⟨he, by simpa using hmg⟩, ?_⟩
    rw [survivorEntry, if_neg hs]

theorem not_ownsPath_subtract_self {ledger : Ledger} {manager : Manager}
    {ks : List FieldPath} {p : FieldPath} :
    ¬ ownsPath (subtractFromOthers ledger manager ks) manager p := by
  rintro ⟨e, he, _⟩
  rw [subtractFromOthers, List.mem_filterMap] at he
  obtain ⟨me, hme, hsur⟩ := he
  have hne : me.1 ≠ manager := by
    have := (List.mem_filter.mp hme).2
    simpa using this
  rw [survivorEntry] at hsur
  by_cases hs : me.2.set.filter (fun q => decide (q ∉ ks)) = []
  · rw [if_pos hs] at hsur
    exact Option.noConfusion hsur
  · rw [if_neg hs] at hsur
    exact hne (congrArg Prod.fst (Option.some.inj hsur))

theorem ownsPath_append_single {L : Ledger} {manager mg : Manager}
    {p : FieldPath} {ne : Entry} :
    ownsPath (L ++ [(manager, ne)]) mg p ↔
      ownsPath L mg p ∨ (mg = manager ∧ p ∈ ne.set) := by
  constructor
  · rintro ⟨e, he, hpe⟩
    rcases List.mem_append.mp he with h | h
    · exact Or.inl ⟨e, h, hpe⟩
    · rcases List.mem_singleton.mp h with heq
      have h1 : mg = manager := congrArg Prod.fst heq
      have h2 : e = ne := congrArg Prod.snd heq
      exact Or.inr ⟨h1, h2 ▸ hpe⟩
  · rintro (⟨e, he, hpe⟩ | ⟨rfl, hpe⟩)
    · exact ⟨e, List.mem_append.mpr (Or.inl he), hpe⟩
    · exact ⟨ne, List.mem_append.mpr (Or.inr (List.mem_singleton.mpr rfl)),
        hpe⟩

theorem mem_pathUnion {a b : List FieldPath} {p : FieldPath} :
    p ∈ pathUnion a b ↔ p ∈ a ∨ p ∈ b := by
  rw [pathUnion, List.mem_append]
  constructor
  · rintro (h | h)
    · exact Or.inl h
    · exact Or.inr (List.mem_of_mem_filter h)
  · rintro (h | h)
    · exact Or.inl h
    · by_cases ha : p ∈ a
      · exact Or.inl ha
      · exact Or.inr (List.mem_filter.mpr ⟨h, by simpa using ha⟩)

theorem find?_of_mem_nodup {ledger : Ledger} {mg : Manager} {e : Entry}
    (hnd : (ledger.map Prod.fst).Nodup) (hmem : (mg, e) ∈ ledger) :
    ledger.find? (fun me => decide (me.1 = mg)) = some (mg, e) := by
  induction ledger with
  | nil => exact absurd hmem (List.not_mem_nil _)
  | cons me rest ih =>
    rw [List.map_cons, List.nodup_cons] at hnd
    by_cases hh : me.1 = mg
    · have : (mg, e) = me := by
        rcases List.mem_cons.mp hmem with h | h
        · exact h
        · exact absurd (hh ▸ List.mem_map.mpr ⟨(mg, e), h, rfl⟩) hnd.1
      rw [List.find?_cons_of_pos _ (by simpa using hh), this]
    · have hmem2 : (mg, e) ∈ rest := by
        rcases List.mem_cons.mp hmem with h | h
        · exact absurd (congrArg Prod.fst h.symm) hh
        · exact h
      rw [List.find?_cons_of_neg _ (by simpa using hh)]
      exact ih hnd.2 hmem2

theorem ownsPath_iff_prevSet {ledger : Ledger} {mg : Manager} {p : FieldPath}
    (hnd : (ledger.map Prod.fst).Nodup) :
    ownsPath ledger mg p ↔ p ∈ prevSet ledger mg := by
  constructor
  · rintro ⟨e, he, hpe⟩
    rw [prevSet, find?_of_mem_nodup hnd he]
    exact hpe
  · intro h
    rw [prevSet] at h
    cases hf : ledger.find? (fun me => decide (me.1 = mg)) with
    | none =>
      rw [hf] at h
      exact absurd h (List.not_mem_nil _)
    | some me =>
      rw [hf] at h
      have h1 : me.1 = mg := by
        have := List.find?_some hf
        simpa using this
      refine ⟨me.2, ?_, h⟩
      rw [← h1]
      exact List.mem_of_find?_eq_some hf

theorem lookupF_self_of_nodup {d : Document}
    (hnd : (docKeys d).Nodup) : ∀ pv ∈ d, lookupF d pv.1 = some pv.2 := by
  induction d with
  | nil => intro pv h; exact absurd h (List.not_mem_nil _)
  | cons qv rest ih =>
    rw [docKeys, List.map_cons, List.nodup_cons] at hnd
    intro pv hpv
    rcases List.mem_cons.mp hpv with rfl | h
    · simp [lookupF]
    · have hne : qv.1 ≠ pv.1 := by
        intro heq
        exact hnd.1 (heq ▸ List.mem_map.mpr ⟨pv, h, rfl⟩)
      rw [lookupF, if_neg hne]
      exact ih hnd.2 pv h

theorem changedPaths_self {d : Document} (hnd : (docKeys d).Nodup) :
    changedPaths d d = [] := by
  rw [changedPaths]
  have : d.filter (fun pv => decide (lookupF d pv.1 ≠ some pv.2)) = [] := by
    rw [List.filter_eq_nil_iff]
    intro pv hpv
    simp [lookupF_self_of_nodup hnd pv hpv]
  rw [this]
  rfl

/-- C4: an Update leaves every field absent from the submitted document
with its live value and its recorded ownership untouched; in particular an
Update resubmitting exactly the live content is a strict no-op: the whole
object, ledger included, is returned unchanged. -/
theorem C4_update_frame (live : LiveObject) (doc : InputDoc)
    (manager : Manager) (now : Nat) (hm : manager ≠ "")
    (hnd : (live.ledger.map Prod.fst).Nodup) :
    (∀ o, Update live doc manager now = Except.ok o →
      ∀ p, p ∉ docKeys doc.fields →
        lookupF o.fields p = lookupF live.fields p ∧
        ∀ mg, ownsPath o.ledger mg p ↔ ownsPath live.ledger mg p)
    ∧ (∀ av mf, (docKeys live.fields).Nodup →
        Update live ⟨av, live.fields, mf⟩ manager now = Except.ok live) := by
  constructor
  · intro o ho p hp
    rw [Update, if_neg hm] at ho
    by_cases hch : changedPaths live.fields doc.fields = []
    · rw [if_pos hch] at ho
      cases Except.ok.inj ho
      exact ⟨rfl, fun mg => Iff.rfl⟩
    · rw [if_neg hch] at ho
      cases Except.ok.inj ho
      have hpch : p ∉ changedPaths live.fields doc.fields :=
        fun h => hp (changedPaths_subset_docKeys h)
      refine ⟨lookupF_mergeUpdate hp, ?_⟩
      intro mg
      rw [ownsPath_append_single]
      by_cases hmg : mg = manager
      · subst hmg
        constructor
        · rintro (h | ⟨_, hpe⟩)
          · exact absurd h not_ownsPath_subtract_self
          · rcases mem_pathUnion.mp hpe with h | h
            · exact (ownsPath_iff_prevSet hnd).mpr h
            · exact absurd h hpch
        · intro h
          exact Or.inr ⟨rfl, mem_pathUnion.mpr
            (Or.inl ((ownsPath_iff_prevSet hnd).mp h))⟩
      · constructor
        · rintro (h | ⟨heq, _⟩)
          · exact (ownsPath_subtractFromOthers hmg hpch).mp h
          · exact absurd heq hmg
        · intro h
          exact Or.inl ((ownsPath_subtractFromOthers hmg hpch).mpr h)
  · intro av mf hndk
    rw [Update, if_neg hm, if_pos (changedPaths_self hndk)]

/-- Witness for C4 at a concrete partial Update: manager "w" updates one
path while another path owned by "A" is omitted and untouched. -/
theorem C4_update_frame_witness :
    (∀ o, Update
        ⟨"v1", [([PathElement.f "a"], Value.int 1),
                ([PathElement.f "b"], Value.int 2)],
          [("A", ⟨Operation.update, "v1", 0, [[PathElement.f "b"]]⟩)]⟩
        ⟨"v1", [([PathElement.f "a"], Value.int 7)], []⟩ "w" 5 =
        Except.ok o →
      ∀ p, p ∉ docKeys [([PathElement.f "a"], Value.int 7)] →
        lookupF o.fields p =
          lookupF [([PathElement.f "a"], Value.int 1),
            ([PathElement.f "b"], Value.int 2)] p ∧
        ∀ mg, ownsPath o.ledger mg p ↔
          ownsPath [("A", ⟨Operation.update, "v1", 0,
            [[PathElement.f "b"]]⟩)] mg p)
    ∧ (∀ av mf, (docKeys [([PathElement.f "a"], Value.int 1),
          ([PathElement.f "b"], Value.int 2)]).Nodup →
        Update
          ⟨"v1", [([PathElement.f "a"], Value.int 1),
                  ([PathElement.f "b"], Value.int 2)],
            [("A", ⟨Operation.update, "v1", 0, [[PathElement.f "b"]]⟩)]⟩
          ⟨av, [([PathElement.f "a"], Value.int 1),
                ([PathElement.f "b"], Value.int 2)], mf⟩ "w" 5 =
          Except.ok ⟨"v1", [([PathElement.f "a"], Value.int 1),
                ([PathElement.f "b"], Value.int 2)],
            [("A", ⟨Operation.update, "v1", 0, [[PathElement.f "b"]]⟩)]⟩) :=
  C4_update_frame
    ⟨"v1", [([PathElement.f "a"], Value.int 1),
            ([PathElement.f "b"], Value.int 2)],
      [("A", ⟨Operation.update, "v1", 0, [[PathElement.f "b"]]⟩)]⟩
    ⟨"v1", [([PathElement.f "a"], Value.int 7)], []⟩ "w" 5
    (by decide) (by decide)

/-! ## Apply idempotence (C3) -/

theorem subtract_mem_props {ledger : Ledger} {manager : Manager}
    {ks : List FieldPath} {me : Manager × Entry}
    (h : me ∈ subtractFromOthers ledger manager ks) :
    me.1 ≠ manager ∧ (∀ p ∈ me.2.set, p ∉ ks) ∧ me.2.set ≠ [] := by
  rw [subtractFromOthers, List.mem_filterMap] at h
  obtain ⟨me0, hme0, hsur⟩ := h
  have hne : me0.1 ≠ manager := by simpa using (List.mem_filter.mp hme0).2
  rw [survivorEntry] at hsur
  by_cases hs : me0.2.set.filter (fun q => decide (q ∉ ks)) = []
  · rw [if_pos hs] at hsur
    exact Option.noConfusion hsur
  · rw [if_neg hs] at hsur
    have heq := Option.some.inj hsur
    refine ⟨?_, ?_, ?_⟩
    · rw [← heq]
      exact hne
    · rw [← heq]
      intro p hp
      have := List.mem_filter.mp hp
      simpa using this.2
    · rw [← heq]
      exact hs

theorem subtract_filter_self {ledger : Ledger} {manager : Manager}
    {ks : List FieldPath} :
    (subtractFromOthers ledger manager ks).filter
        (fun me => decide (me.1 ≠ manager)) =
      subtractFromOthers ledger manager ks :=
  List.filter_eq_self.mpr
    (fun me hme => by simpa using (subtract_mem_props hme).1)

theorem filterMap_survivorEntry_id {L : Ledger} {ks : List FieldPath}
    (h : ∀ me ∈ L, (∀ p ∈ me.2.set, p ∉ ks) ∧ me.2.set ≠ []) :
    L.filterMap (survivorEntry ks) = L := by
  induction L with
  | nil => rfl
  | cons me rest ih =>
    have hme := h me (List.mem_cons_self _ _)
    have hfs : me.2.set.filter (fun q => decide (q ∉ ks)) = me.2.set :=
      List.filter_eq_self.mpr (fun p hp => by simpa using hme.1 p hp)
    have hsome : survivorEntry ks me = some me := by
      rw [survivorEntry, hfs, if_neg hme.2]
    rw [List.filterMap_cons, hsome,
      ih (fun x hx => h x (List.mem_cons_of_mem _ hx))]

theorem subtract_idem {ledger : Ledger} {manager : Manager}
    {ks : List FieldPath} {ne : Entry} :
    subtractFromOthers
        (subtractFromOthers ledger manager ks ++ [(manager, ne)]) manager ks
      = subtractFromOthers ledger manager ks := by
  conv_lhs => rw [subtractFromOthers]
  rw [List.filter_append, subtract_filter_self]
  have h2 : ([(manager, ne)] : Ledger).filter
      (fun me => decide (me.1 ≠ manager)) = [] := by simp
  rw [h2, List.append_nil]
  exact filterMap_survivorEntry_id (fun me hme => (subtract_mem_props hme).2)

theorem find?_manager_append {L : Ledger} {manager : Manager} {ne : Entry}
    (h : ∀ me ∈ L, me.1 ≠ manager) :
    (L ++ [(manager, ne)]).find? (fun me => decide (me.1 = manager)) =
      some (manager, ne) := by
  induction L with
  | nil => simp
  | cons me rest ih =>
    rw [List.cons_append, List.find?_cons_of_neg _
      (by simpa using h me (List.mem_cons_self _ _))]
    exact ih (fun x hx => h x (List.mem_cons_of_mem _ hx))

theorem conflictsWith_after {av : String} {fs docF : Document}
    {manager : Manager} {L : Ledger} {ne : Entry}
    (hL : ∀ me ∈ L, me.1 ≠ manager ∧ (∀ p ∈ me.2.set, p ∉ docKeys docF)) :
    conflictsWith ⟨av, fs, L ++ [(manager, ne)]⟩ docF manager = [] := by
  rw [List.eq_nil_iff_forall_not_mem]
  rintro ⟨p2, m2⟩ hpm
  obtain ⟨e, he, hm2, hpe, hk, _⟩ := mem_conflictsWith.mp hpm
  rcases List.mem_append.mp he with h | h
  · exact ((hL _ h).2 p2 hpe) hk
  · exact hm2 (congrArg Prod.fst (List.mem_singleton.mp h))

theorem filter_pred_reproduce {docF F : Document}
    {pred : FieldPath × Value → Bool}
    (hdoc : ∀ pv ∈ docF, pred pv = false) (hF : ∀ pv ∈ F, pred pv = true) :
    (docF ++ F).filter pred = F := by
  rw [List.filter_append,
    List.filter_eq_nil_iff.mpr (fun pv hpv => by simp [hdoc pv hpv]),
    List.filter_eq_self.mpr hF, List.nil_append]

theorem applyCore_idem (live : LiveObject) (docF : Document)
    (manager : Manager) (force2 : Bool) (now2 : Nat) (ne1 : Entry)
    (o1 : LiveObject)
    (hne1core : ne1.operation = Operation.apply ∧
      ne1.apiVersion = live.apiVersion ∧ ne1.set = docKeys docF)
    (ho1 : o1 = ⟨live.apiVersion,
      docF ++ live.fields.filter (fun pv =>
        decide (pv.1 ∉ docKeys docF) &&
        ownedByAny (subtractFromOthers live.ledger manager (docKeys docF))
          pv.1),
      subtractFromOthers live.ledger manager (docKeys docF) ++
        [(manager, ne1)]⟩) :
    applyCore o1 docF manager force2 now2 = Except.ok o1 := by
  subst ho1
  have hcs := @conflictsWith_after live.apiVersion
    (docF ++ live.fields.filter (fun pv =>
      decide (pv.1 ∉ docKeys docF) &&
      ownedByAny (subtractFromOthers live.ledger manager (docKeys docF))
        pv.1))
    docF manager
    (subtractFromOthers live.ledger manager (docKeys docF)) ne1
    (fun me hme =>
      ⟨(subtract_mem_props hme).1, (subtract_mem_props hme).2.1⟩)
  rw [applyCore, if_neg (fun hc => hc.1 hcs)]
  dsimp only
  rw [subtract_idem]
  have e4 : (docF ++ live.fields.filter (fun pv =>
      decide (pv.1 ∉ docKeys docF) &&
      ownedByAny (subtractFromOthers live.ledger manager (docKeys docF))
        pv.1)).filter (fun pv =>
      decide (pv.1 ∉ docKeys docF) &&
      ownedByAny (subtractFromOthers live.ledger manager (docKeys docF))
        pv.1) =
      live.fields.filter (fun pv =>
        decide (pv.1 ∉ docKeys docF) &&
        ownedByAny (subtractFromOthers live.ledger manager (docKeys docF))
          pv.1) := by
    refine filter_pred_reproduce ?_ ?_
    · intro pv hpv
      have hmem : pv.1 ∈ docKeys docF := List.mem_map.mpr ⟨pv, hpv, rfl⟩
      simp [hmem]
    · intro pv hpv
      exact (List.mem_filter.mp hpv).2
  rw [e4]
  have e3 : retainEntry
      (subtractFromOthers live.ledger manager (docKeys docF) ++
        [(manager, ne1)]) manager
      ⟨Operation.apply, live.apiVersion, now2, docKeys docF⟩ = ne1 := by
    rw [retainEntry,
      find?_manager_append (fun me hme => (subtract_mem_props hme).1)]
    dsimp only
    rw [if_pos hne1core]
  rw [e3]

theorem retainEntry_core (ledger : Ledger) (manager : Manager)
    (cand : Entry) :
    (retainEntry ledger manager cand).operation = cand.operation ∧
    (retainEntry ledger manager cand).apiVersion = cand.apiVersion ∧
    (retainEntry ledger manager cand).set = cand.set := by
  rw [retainEntry]
  cases hf : ledger.find? (fun me => decide (me.1 = manager)) with
  | none => exact ⟨rfl, rfl, rfl⟩
  | some me =>
    dsimp only
    by_cases hc : me.2.operation = cand.operation ∧
        me.2.apiVersion = cand.apiVersion ∧ me.2.set = cand.set
    · rw [if_pos hc]
      exact hc
    · rw [if_neg hc]
      exact ⟨rfl, rfl, rfl⟩

/-- C3: re-applying the identical intent with the same manager on the
otherwise-unchanged result object is a no-op: the second Apply returns the
object unchanged — values, ledger entries and retained timestamps included
— raising no conflict and changing no ownership. -/
theorem C3_apply_idempotent (convertible : String → String → Bool)
    (live : LiveObject) (doc : InputDoc) (manager : Manager)
    (force1 force2 : Bool) (now1 now2 : Nat) (o1 : LiveObject)
    (h : Apply convertible live doc manager force1 now1 = Except.ok o1) :
    Apply convertible o1 doc manager force2 now2 = Except.ok o1 := by
  rw [Apply] at h
  by_cases hm : manager = ""
  · rw [if_pos hm] at h
    exact Except.noConfusion h
  rw [if_neg hm] at h
  by_cases hmf : doc.managedFields ≠ []
  · rw [if_pos hmf] at h
    exact Except.noConfusion h
  rw [if_neg hmf] at h
  by_cases hvc : doc.apiVersion ≠ live.apiVersion ∧
      convertible doc.apiVersion live.apiVersion = false
  · rw [if_pos hvc] at h
    exact Except.noConfusion h
  rw [if_neg hvc] at h
  rw [applyCore] at h
  by_cases hcs1 : conflictsWith live doc.fields manager ≠ [] ∧
      force1 = false
  · rw [if_pos hcs1] at h
    exact Except.noConfusion h
  rw [if_neg hcs1] at h
  have ho1 := (Except.ok.inj h).symm
  rw [Apply, if_neg hm, if_neg hmf]
  have hver2 : ¬(doc.apiVersion ≠ o1.apiVersion ∧
      convertible doc.apiVersion o1.apiVersion = false) := by
    rw [ho1]
    exact hvc
  rw [if_neg hver2]
  exact applyCore_idem live doc.fields manager force2 now2
    (retainEntry live.ledger manager
      ⟨Operation.apply, live.apiVersion, now1, docKeys doc.fields⟩)
    o1 (retainEntry_core live.ledger manager
      ⟨Operation.apply, live.apiVersion, now1, docKeys doc.fields⟩) ho1

/-- Witness for C3: a fresh Apply creates the object, and re-applying the
same intent (even with a different force flag and timestamp) returns it
unchanged. -/
theorem C3_apply_idempotent_witness :
    Apply (fun _ _ => false)
      ⟨"v1", [([PathElement.f "a"], Value.int 1)],
        [("m", ⟨Operation.apply, "v1", 2, [[PathElement.f "a"]]⟩)]⟩
      ⟨"v1", [([PathElement.f "a"], Value.int 1)], []⟩ "m" true 5 =
    Except.ok
      ⟨"v1", [([PathElement.f "a"], Value.int 1)],
        [("m", ⟨Operation.apply, "v1", 2, [[PathElement.f "a"]]⟩)]⟩ :=
  C3_apply_idempotent (fun _ _ => false) ⟨"v1", [], []⟩
    ⟨"v1", [([PathElement.f "a"], Value.int 1)], []⟩ "m" false true 2 5
    ⟨"v1", [([PathElement.f "a"], Value.int 1)],
      [("m", ⟨Operation.apply, "v1", 2, [[PathElement.f "a"]]⟩)]⟩
    (by rfl)

/-! ## Embedding of `generated.pb.go` (`RuntimeClass` marshal/size/unmarshal)

From `src/staging/src/k8s.io/api/node/v1beta1/generated.pb.go`.  Byte
slices are `List Nat` (each element a byte value).  The `ObjectMeta`
sub-message is delegated by the source to its own marshal/size/unmarshal
(`k8s.io/apimachinery`, not among the source files); it is modelled
opaquely by its wire bytes: its `Size` is their length, its `LahsramOt`
writes exactly those bytes, and its `Unmarshal` records the received
slice.  A Go `string` (`Handler`) is likewise its byte sequence. -/

/-- `sovGenerated` from the source: `(math_bits.Len64(x|1) + 6) / 7`;
for the nonzero value `x ||| 1`, `bits.Len64` is `Nat.log2 + 1`. -/
def sovGenerated (x : Nat) : Nat := (Nat.log2 (x ||| 1) + 1 + 6) / 7

/-- `encodeVarintGenerated` from the source, as the forward byte sequence
the backward writer stores: while `v >= 1<<7` emit `v&0x7f|0x80` and shift
`v >>= 7`; finally emit `v`. -/
def encodeVarintGenerated (v : Nat) : List Nat :=
  if h : v < 128 then [v]
  else ((v &&& 127) ||| 128) :: encodeVarintGenerated (v >>> 7)
termination_by v
decreasing_by
  simp only [Nat.shiftRight_eq_div_pow]
  exact Nat.div_lt_self (by omega) (by norm_num)

/-- `RuntimeClass`: the `ObjectMeta` sub-message (opaque wire bytes, see
above) and the `Handler` string (bytes). -/
structure RuntimeClass where
  ObjectMeta : List Nat
  Handler : List Nat
deriving DecidableEq

/-- `RuntimeClass.LahsramOt` from the source: the backward buffer writer
expressed by prepending — it writes (from the end of the buffer) the
`Handler` bytes, the varint of their length, the key byte `0x12`, then the
`ObjectMeta` sub-message via its own `LahsramOt`, the varint of its size,
and the key byte `0xa`. -/
def RuntimeClass.LahsramOt (m : RuntimeClass) : List Nat :=
  0xa :: (encodeVarintGenerated m.ObjectMeta.length ++
    (m.ObjectMeta ++
      (0x12 :: (encodeVarintGenerated m.Handler.length ++ m.Handler))))

/-- `RuntimeClass.Size` from the source:
`n += 1 + l + sov(l)` for `l = m.ObjectMeta.Size()` then for
`l = len(m.Handler)`. -/
def RuntimeClass.Size (m : RuntimeClass) : Nat :=
  1 + m.ObjectMeta.length + sovGenerated m.ObjectMeta.length +
    (1 + m.Handler.length + sovGenerated m.Handler.length)

/-- `RuntimeClass.Marshal` from the source: allocate `Size()` bytes,
backward-write with `LahsramOt` (filling the last `n` positions, the
untouched front staying zero), and return the first `n` bytes where `n`
is the written count. -/
def RuntimeClass.Marshal (m : RuntimeClass) : List Nat :=
  (List.replicate (m.Size - m.LahsramOt.length) 0 ++ m.LahsramOt).take
    m.LahsramOt.length

/-- The repeated varint-reading loop of the source
(`wire |= uint64(b&0x7F) << shift` under uint64 arithmetic, failing at
`shift >= 64` or end of input; the two failure modes both yield `none`). -/
def readVarintAux : List Nat → Nat → Nat → Option (Nat × List Nat)
  | [], _, _ => none
  | b :: rest, shift, acc =>
    if 64 ≤ shift then none
    else if b < 128 then
      some (acc ||| (((b &&& 127) <<< shift) % 2 ^ 64), rest)
    else readVarintAux rest (shift + 7)
      (acc ||| (((b &&& 127) <<< shift) % 2 ^ 64))

def readVarint (l : List Nat) : Option (Nat × List Nat) :=
  readVarintAux l 0 0

mutual

/-- `skipGenerated` from the source (fuelled: every recursive call and
group iteration consumes input, so `2 * length + 2` fuel is never
exhausted on inputs the source terminates on).  Returns the number of
bytes the skipped field occupies, counted from the field's key byte. -/
def skipGenAux : Nat → List Nat → Option Nat
  | 0, _ => none
  | fuel + 1, l =>
    match readVarint l with
    | none => none
    | some (wire, rest) =>
      if wire &&& 7 = 0 then
        match readVarint rest with
        | none => none
        | some (_, rest2) => some (l.length - rest2.length)
      else if wire &&& 7 = 1 then some (l.length - rest.length + 8)
      else if wire &&& 7 = 2 then
        match readVarint rest with
        | none => none
        | some (len, rest2) =>
          if 2 ^ 63 ≤ len then none
          else some (l.length - rest2.length + len)
      else if wire &&& 7 = 3 then
        skipGroupAux fuel (l.length - rest.length) rest
      else if wire &&& 7 = 4 then some (l.length - rest.length)
      else if wire &&& 7 = 5 then some (l.length - rest.length + 4)
      else none

/-- The wire-type-3 (group) loop of `skipGenerated`: skip inner fields
until an end-group key (wire type 4) is read. -/
def skipGroupAux : Nat → Nat → List Nat → Option Nat
  | 0, _, _ => none
  | fuel + 1, consumed, l =>
    match readVarint l with
    | none => none
    | some (innerWire, rest) =>
      if innerWire &&& 7 = 4 then
        some (consumed + (l.length - rest.length))
      else
        match skipGenAux fuel l with
        | none => none
        | some next => skipGroupAux fuel (consumed + next) (l.drop next)

end

def skipGenerated (l : List Nat) : Option Nat :=
  skipGenAux (2 * l.length + 2) l

/-- The field loop of `RuntimeClass.Unmarshal` from the source (fuelled;
every iteration consumes at least the key varint byte, so
`length + 1` fuel is never exhausted).  Field 1 (`ObjectMeta`, wire type
2) delegates the length-prefixed slice to the sub-message unmarshal;
field 2 (`Handler`, wire type 2) stores the string bytes; other fields are
skipped with `skipGenerated`; `fieldNum` is `int32(wire >> 3)` and the
loop fails on wire type 4, `fieldNum <= 0`, signed length overflow, or
out-of-bounds slices. -/
def runtimeClassUnmarshalLoop : List Nat → Nat → RuntimeClass →
    Option RuntimeClass
  | [], _, m => some m
  | _ :: _, 0, _ => none
  | b :: bs, fuel + 1, m =>
    match readVarint (b :: bs) with
    | none => none
    | some (wire, rest) =>
      if wire &&& 7 = 4 then none
      else if (wire >>> 3) % 2 ^ 32 = 0 ∨ 2 ^ 31 ≤ (wire >>> 3) % 2 ^ 32
      then none
      else if (wire >>> 3) % 2 ^ 32 = 1 then
        if wire &&& 7 ≠ 2 then none
        else
          match readVarint rest with
          | none => none
          | some (msglen, rest2) =>
            if 2 ^ 63 ≤ msglen then none
            else if rest2.length < msglen then none
            else runtimeClassUnmarshalLoop (rest2.drop msglen) fuel
              ⟨rest2.take msglen, m.Handler⟩
      else if (wire >>> 3) % 2 ^ 32 = 2 then
        if wire &&& 7 ≠ 2 then none
        else
          match readVarint rest with
          | none => none
          | some (stringLen, rest2) =>
            if 2 ^ 63 ≤ stringLen then none
            else if rest2.length < stringLen then none
            else runtimeClassUnmarshalLoop (rest2.drop stringLen) fuel
              ⟨m.ObjectMeta, rest2.take stringLen⟩
      else
        match skipGenerated (b :: bs) with
        | none => none
        | some skippy =>
          if (b :: bs).length < skippy then none
          else runtimeClassUnmarshalLoop ((b :: bs).drop skippy) fuel m

/-- `RuntimeClass.Unmarshal` from the source, run on a receiver `m`
(the claim uses the zero `RuntimeClass` `⟨[], []⟩`). -/
def RuntimeClass.Unmarshal (m : RuntimeClass) (dAtA : List Nat) :
    Option RuntimeClass :=
  runtimeClassUnmarshalLoop dAtA (dAtA.length + 1) m

/-! ## Varint correctness -/

theorem lor_shiftLeft_eq_add {a : Nat} (b n : Nat) (h : a < 2 ^ n) :
    a ||| b <<< n = a + b * 2 ^ n := by
  apply Nat.eq_of_testBit_eq
  intro j
  have hrw : a + b * 2 ^ n = 2 ^ n * b + a := by ring
  rw [Nat.testBit_lor, Nat.testBit_shiftLeft, hrw,
    Nat.testBit_mul_pow_two_add b h j]
  by_cases hj : j < n
  · have hge : ¬ j ≥ n := by omega
    simp [hj, hge]
  · have h1 : j ≥ n := by omega
    have h2 : a.testBit j = false :=
      Nat.testBit_lt_two_pow
        (lt_of_lt_of_le h (Nat.pow_le_pow_right (by norm_num) h1))
    simp [hj, h1, h2]

theorem and_127_eq_mod (x : Nat) : x &&& 127 = x % 128 := by
  have h : (127 : Nat) = 2 ^ 7 - 1 := by norm_num
  rw [h, Nat.and_pow_two_sub_one_eq_mod]

theorem lor_one_even {v : Nat} (h : v % 2 = 0) : v ||| 1 = v + 1 := by
  have h3 : (v / 2) <<< 1 = v := by
    rw [Nat.shiftLeft_eq]
    omega
  have h2 : (1 : Nat) ||| (v / 2) <<< 1 = 1 + (v / 2) * 2 ^ 1 :=
    lor_shiftLeft_eq_add (v / 2) 1 (by norm_num)
  rw [Nat.lor_comm, ← h3, h2]
  have h4 : (2 : Nat) ^ 1 = 2 := by norm_num
  rw [h4]
  omega

theorem lor_one_odd {v : Nat} (h : v % 2 = 1) : v ||| 1 = v := by
  apply Nat.eq_of_testBit_eq
  intro j
  rw [Nat.testBit_lor]
  cases j with
  | zero => simp [Nat.testBit_zero, h]
  | succ jj =>
    have h1 : (1 : Nat).testBit (jj + 1) = false := by
      rw [Nat.testBit_add_one]
      simp
    simp [h1]

theorem log2_lor_one {v : Nat} (hv : 1 ≤ v) :
    Nat.log2 (v ||| 1) = Nat.log2 v := by
  rcases Nat.mod_two_eq_zero_or_one v with h | h
  · rw [lor_one_even h]
    have hne : v ≠ 0 := by omega
    have hlow : 2 ^ Nat.log2 v ≤ v := Nat.log2_self_le hne
    have hhigh : v < 2 ^ (Nat.log2 v + 1) := Nat.lt_log2_self
    have heven : 2 ^ (Nat.log2 v + 1) % 2 = 0 := by
      rw [Nat.pow_succ]
      omega
    have hsucc : v + 1 < 2 ^ (Nat.log2 v + 1) := by omega
    apply Nat.le_antisymm
    · have := (Nat.log2_lt (by omega : v + 1 ≠ 0)).mpr hsucc
      omega
    · exact (Nat.le_log2 (by omega)).mpr (le_trans hlow (by omega))
  · rw [lor_one_odd h]

theorem sov_small {v : Nat} (h : v < 128) : sovGenerated v = 1 := by
  rw [sovGenerated]
  rcases Nat.eq_zero_or_pos v with rfl | hv
  · have h1 : (0 : Nat) ||| 1 = 1 := by simp
    rw [h1]
    have h2 : Nat.log2 1 = 0 := by
      have := (Nat.log2_lt (by norm_num : (1 : Nat) ≠ 0)).mpr
        (by norm_num : (1 : Nat) < 2 ^ 1)
      omega
    rw [h2]
  · rw [log2_lor_one hv]
    have h7 : v < 2 ^ 7 := lt_of_lt_of_eq h (by norm_num)
    have hl : Nat.log2 v < 7 := (Nat.log2_lt (by omega)).mpr h7
    omega

theorem log2_div_128 {v : Nat} (h : 128 ≤ v) :
    Nat.log2 (v / 128) = Nat.log2 v - 7 := by
  rw [Nat.log2_eq_log_two, Nat.log2_eq_log_two]
  have hsplit : v / 128 = v / 2 / 2 / 2 / 2 / 2 / 2 / 2 := by omega
  rw [hsplit, Nat.log_div_base, Nat.log_div_base, Nat.log_div_base,
    Nat.log_div_base, Nat.log_div_base, Nat.log_div_base, Nat.log_div_base]
  omega

theorem sov_step {v : Nat} (h : 128 ≤ v) :
    sovGenerated v = sovGenerated (v >>> 7) + 1 := by
  have hd : v >>> 7 = v / 128 := by
    rw [Nat.shiftRight_eq_div_pow]
  have hd1 : 1 ≤ v / 128 := (Nat.one_le_div_iff (by norm_num)).mpr h
  have hge : 7 ≤ Nat.log2 v :=
    (Nat.le_log2 (by omega)).mpr (le_trans (by norm_num) h)
  rw [sovGenerated, sovGenerated, hd, log2_lor_one (by omega),
    log2_lor_one hd1, log2_div_128 h]
  omega

theorem encodeVarint_length (v : Nat) :
    (encodeVarintGenerated v).length = sovGenerated v := by
  induction v using Nat.strong_induction_on with
  | _ v ih =>
    rw [encodeVarintGenerated]
    by_cases h : v < 128
    · rw [dif_pos h]
      rw [sov_small h]
      rfl
    · rw [dif_neg h]
      have hlt : v >>> 7 < v := by
        rw [Nat.shiftRight_eq_div_pow]
        exact Nat.div_lt_self (by omega) (by norm_num)
      rw [List.length_cons, ih _ hlt, ← sov_step (by omega)]

theorem lor_mul_pow_eq_add {a : Nat} (b n : Nat) (h : a < 2 ^ n) :
    a ||| b * 2 ^ n = a + b * 2 ^ n := by
  have h2 := lor_shiftLeft_eq_add b n h
  rw [Nat.shiftLeft_eq] at h2
  exact h2

theorem readVarintAux_encode :
    ∀ (v : Nat) (tail : List Nat) (shift acc : Nat),
      shift < 64 → acc < 2 ^ shift → v < 2 ^ (64 - shift) →
      readVarintAux (encodeVarintGenerated v ++ tail) shift acc =
        some (acc + v * 2 ^ shift, tail) := by
  intro v
  induction v using Nat.strong_induction_on with
  | _ v ih =>
    intro tail shift acc hshift hacc hv
    rw [encodeVarintGenerated]
    by_cases h : v < 128
    · rw [dif_pos h, List.singleton_append]
      rw [readVarintAux, if_neg (by omega : ¬ 64 ≤ shift), if_pos h]
      have e1 : v &&& 127 = v := by
        rw [and_127_eq_mod]
        omega
      have e3 : v * 2 ^ shift < 2 ^ 64 := by
        calc v * 2 ^ shift < 2 ^ (64 - shift) * 2 ^ shift :=
              (Nat.mul_lt_mul_right (Nat.two_pow_pos shift)).mpr hv
          _ = 2 ^ 64 := by
              rw [← pow_add]
              congr 1
              omega
      rw [e1, Nat.shiftLeft_eq, Nat.mod_eq_of_lt e3,
        lor_mul_pow_eq_add _ _ hacc]
    · rw [dif_neg h, List.cons_append]
      rw [readVarintAux, if_neg (by omega : ¬ 64 ≤ shift)]
      have hmodlt : v % 128 < 128 := Nat.mod_lt v (by norm_num)
      have hb : (v &&& 127) ||| 128 = v % 128 + 128 := by
        rw [and_127_eq_mod]
        have h2 := lor_mul_pow_eq_add 1 7
          (lt_of_lt_of_eq hmodlt (by norm_num) : v % 128 < 2 ^ 7)
        norm_num at h2
        exact h2
      rw [hb, if_neg (by omega : ¬ v % 128 + 128 < 128)]
      have hb2 : (v % 128 + 128) &&& 127 = v % 128 := by
        rw [and_127_eq_mod]
        omega
      rw [hb2]
      have hs7 : shift + 7 < 64 := by
        by_contra hc
        have h1 : 64 - shift ≤ 7 := by omega
        have h2 : (2 : Nat) ^ (64 - shift) ≤ 2 ^ 7 :=
          Nat.pow_le_pow_right (by norm_num) h1
        exact h (lt_of_lt_of_le hv (le_trans h2 (by norm_num)))
      have he3 : (v % 128) * 2 ^ shift < 2 ^ (shift + 7) := by
        calc (v % 128) * 2 ^ shift < 128 * 2 ^ shift :=
              (Nat.mul_lt_mul_right (Nat.two_pow_pos shift)).mpr hmodlt
          _ = 2 ^ (shift + 7) := by
              rw [pow_add]
              ring
      have he4 : (v % 128) * 2 ^ shift < 2 ^ 64 :=
        lt_of_lt_of_le he3 (Nat.pow_le_pow_right (by norm_num) (by omega))
      rw [Nat.shiftLeft_eq, Nat.mod_eq_of_lt he4,
        lor_mul_pow_eq_add _ _ hacc]
      have hacc2 : acc + v % 128 * 2 ^ shift < 2 ^ (shift + 7) := by
        calc acc + v % 128 * 2 ^ shift
            < 2 ^ shift + v % 128 * 2 ^ shift := by omega
          _ ≤ 2 ^ shift + 127 * 2 ^ shift := by
              have hle : v % 128 ≤ 127 := by omega
              exact Nat.add_le_add_left
                (Nat.mul_le_mul_right _ hle) _
          _ = 128 * 2 ^ shift := by ring
          _ = 2 ^ (shift + 7) := by
              rw [pow_add]
              ring
      have hdiv : v >>> 7 = v / 128 := by
        rw [Nat.shiftRight_eq_div_pow]
      have hlt : v >>> 7 < v := by
        rw [hdiv]
        exact Nat.div_lt_self (by omega) (by norm_num)
      have hv2 : v >>> 7 < 2 ^ (64 - (shift + 7)) := by
        rw [hdiv, Nat.div_lt_iff_lt_mul (by norm_num : (0 : Nat) < 128)]
        calc v < 2 ^ (64 - shift) := hv
          _ = 2 ^ (64 - (shift + 7)) * 128 := by
              have he : 64 - shift = (64 - (shift + 7)) + 7 := by omega
              rw [he, pow_add]
              norm_num
      rw [ih (v >>> 7) hlt tail (shift + 7) (acc + v % 128 * 2 ^ shift)
        hs7 hacc2 hv2]
      have hfin : acc + v % 128 * 2 ^ shift + v >>> 7 * 2 ^ (shift + 7) =
          acc + v * 2 ^ shift := by
        rw [hdiv, pow_add]
        have hmd : v % 128 + 128 * (v / 128) = v := Nat.mod_add_div v 128
        calc acc + v % 128 * 2 ^ shift + v / 128 * (2 ^ shift * 2 ^ 7)
            = acc + (v % 128 + 128 * (v / 128)) * 2 ^ shift := by
              have h7 : (2 : Nat) ^ 7 = 128 := by norm_num
              rw [h7]
              ring
          _ = acc + v * 2 ^ shift := by rw [hmd]
      rw [hfin]

theorem readVarint_encode {v : Nat} (tail : List Nat) (hv : v < 2 ^ 64) :
    readVarint (encodeVarintGenerated v ++ tail) = some (v, tail) := by
  rw [readVarint, readVarintAux_encode v tail 0 0 (by norm_num)
    (by norm_num) (by simpa using hv)]
  norm_num

theorem LahsramOt_length (m : RuntimeClass) :
    m.LahsramOt.length = m.Size := by
  rw [RuntimeClass.LahsramOt, RuntimeClass.Size]
  simp only [List.length_cons, List.length_append, encodeVarint_length]
  omega

theorem Marshal_eq_LahsramOt (m : RuntimeClass) :
    m.Marshal = m.LahsramOt := by
  rw [RuntimeClass.Marshal, LahsramOt_length, Nat.sub_self,
    List.replicate_zero, List.nil_append]
  exact List.take_of_length_le (le_of_eq (LahsramOt_length m))

theorem readVarint_byte {b : Nat} (hb : b < 128) (rest : List Nat) :
    readVarint (b :: rest) = some (b, rest) := by
  rw [readVarint, readVarintAux, if_neg (by norm_num : ¬ (64 : Nat) ≤ 0),
    if_pos hb]
  have e1 : b &&& 127 = b := by
    rw [and_127_eq_mod]
    omega
  have e2 : b <<< 0 = b := by
    rw [Nat.shiftLeft_eq]
    simp
  rw [e1, e2, Nat.mod_eq_of_lt (lt_trans hb (by norm_num))]
  simp

theorem unmarshalLoop_nil (fuel : Nat) (m : RuntimeClass) :
    runtimeClassUnmarshalLoop [] fuel m = some m := by
  cases fuel <;> rfl

theorem unmarshalLoop_field1 (fuel : Nat) (hfuel : 1 ≤ fuel)
    (meta tail : List Nat) (m : RuntimeClass)
    (hk : meta.length < 2 ^ 63) :
    runtimeClassUnmarshalLoop
      (0xa :: (encodeVarintGenerated meta.length ++ (meta ++ tail))) fuel m =
    runtimeClassUnmarshalLoop tail (fuel - 1) ⟨meta, m.Handler⟩ := by
  obtain ⟨f, rfl⟩ : ∃ f, fuel = f + 1 := ⟨fuel - 1, by omega⟩
  rw [Nat.add_sub_cancel]
  rw [runtimeClassUnmarshalLoop, readVarint_byte (by norm_num) _]
  dsimp only
  rw [if_neg (by decide), if_neg (by decide), if_pos (by decide),
    if_neg (by decide),
    readVarint_encode _ (lt_trans hk (by norm_num))]
  dsimp only
  rw [if_neg (not_le.mpr hk),
    if_neg (show ¬ (meta ++ tail).length < meta.length by
      rw [List.length_append]
      omega),
    List.take_left, List.drop_left]

theorem unmarshalLoop_field2_end (fuel : Nat) (hfuel : 1 ≤ fuel)
    (handler : List Nat) (m : RuntimeClass)
    (hh : handler.length < 2 ^ 63) :
    runtimeClassUnmarshalLoop
      (0x12 :: (encodeVarintGenerated handler.length ++ handler)) fuel m =
    some ⟨m.ObjectMeta, handler⟩ := by
  obtain ⟨f, rfl⟩ : ∃ f, fuel = f + 1 := ⟨fuel - 1, by omega⟩
  have happ : encodeVarintGenerated handler.length ++ handler =
      encodeVarintGenerated handler.length ++ (handler ++ []) := by
    rw [List.append_nil]
  rw [happ, runtimeClassUnmarshalLoop, readVarint_byte (by norm_num) _]
  dsimp only
  rw [if_neg (by decide), if_neg (by decide), if_neg (by decide),
    if_pos (by decide), if_neg (by decide),
    readVarint_encode _ (lt_trans hh (by norm_num))]
  dsimp only
  rw [if_neg (not_le.mpr hh), List.append_nil,
    if_neg (lt_irrefl handler.length), List.take_length, List.drop_length]
  exact unmarshalLoop_nil f ⟨m.ObjectMeta, handler⟩

/-- C10: `Marshal` produces a byte sequence whose length equals `Size`,
and `Unmarshal` of that sequence on the zero `RuntimeClass` reconstructs
the message — `Handler` equal to the original and the `ObjectMeta`
sub-message delegated to its own (opaque) marshal/unmarshal — so the
protobuf encode/decode pair is a round trip for `RuntimeClass`. -/
theorem C10_runtimeclass_roundtrip (m : RuntimeClass)
    (hmeta : m.ObjectMeta.length < 2 ^ 63)
    (hhandler : m.Handler.length < 2 ^ 63) :
    m.Marshal.length = m.Size ∧
    RuntimeClass.Unmarshal ⟨[], []⟩ m.Marshal = some m := by
  constructor
  · rw [Marshal_eq_LahsramOt, LahsramOt_length]
  · rw [Marshal_eq_LahsramOt, RuntimeClass.Unmarshal,
      RuntimeClass.LahsramOt]
    rw [unmarshalLoop_field1 _ (by omega) _ _ _ hmeta,
      unmarshalLoop_field2_end _ ?_ _ _ hhandler]
    simp

/-- Witness for C10 at a concrete message. -/
theorem C10_runtimeclass_roundtrip_witness :
    (RuntimeClass.mk [1, 2] [65, 66]).Marshal.length =
      (RuntimeClass.mk [1, 2] [65, 66]).Size ∧
    RuntimeClass.Unmarshal ⟨[], []⟩
        (RuntimeClass.mk [1, 2] [65, 66]).Marshal =
      some (RuntimeClass.mk [1, 2] [65, 66]) :=
  C10_runtimeclass_roundtrip ⟨[1, 2], [65, 66]⟩ (by decide) (by decide)
